import Mathlib

/-!
Shallow embedding of `src/core.py` of the karhunen-loeve-fbm repository.

The module has two public functions:

* `fbm_covariance_grid(t, H)` builds the fractional-Brownian-motion covariance
  matrix `C[i][j] = 0.5 * (|t_i|^(2H) + |t_j|^(2H) - |t_i - t_j|^(2H))` on a
  time grid `t`, after validating that `t` is one-dimensional and
  `0 < H < 1`.
* `fbm_kl_truncated(H, T, K, n_steps, random_state)` validates its inputs,
  builds the equidistant grid `t = np.linspace(0, T, n_steps + 1)`, computes
  the covariance matrix, eigendecomposes it (`np.linalg.eigh`), sorts the
  eigenpairs by eigenvalue descending (`np.argsort(w)[::-1]`), clips the
  eigenvalues at zero (`np.clip(w, 0, None)`), draws `K` standard-normal
  variates, and returns the grid together with
  `path = V[:, :K] @ (sqrt(w[:K]) * z)`.

Modelling conventions:

* Python floats are modelled by `ℝ`; `x ** y` on non-negative bases is
  `Real.rpow`; Python `int` arguments (`K`, `n_steps`) are `ℤ`.
* A numpy array argument of unknown shape is modelled by its dimension count
  `ndim` together with its flattened 1-D contents (the contents are only
  meaningful when `ndim = 1`, which is the only case the code computes with).
* `raise ValueError(msg)` is `Except.error msg`; a normal return is
  `Except.ok`.
* The external eigensolver `np.linalg.eigh` is an explicit functional
  parameter `eigh`; theorems that need its documented guarantee (an exact
  orthonormal eigendecomposition) take that guarantee as a hypothesis.
* A numpy random generator is a stream of real draws together with a cursor;
  `rng.normal(size=K)` returns the next `K` draws and advances the cursor by
  `K`.  `np.random.default_rng` is an explicit functional parameter mapping
  an optional integer seed to a generator.
-/

namespace FbmKL

noncomputable section

open Matrix

/-- The fBm covariance kernel matrix on the grid `t`:
`C i j = 0.5 * (|t i| ^ (2 H) + |t j| ^ (2 H) - |t i - t j| ^ (2 H))`
(lines 29-39 of `src/core.py`; `^` is `Real.rpow`). -/
def covMatrix {N : ℕ} (t : Fin N → ℝ) (H : ℝ) : Matrix (Fin N) (Fin N) ℝ :=
  Matrix.of fun i j =>
    0.5 * (|t i| ^ (2 * H) + |t j| ^ (2 * H) - |t i - t j| ^ (2 * H))

/-- Embedding of `fbm_covariance_grid` (lines 6-39 of `src/core.py`).
The array argument is modelled as its dimension count `ndim` plus its 1-D
contents `t`. -/
def fbm_covariance_grid {N : ℕ} (ndim : ℕ) (t : Fin N → ℝ) (H : ℝ) :
    Except String (Matrix (Fin N) (Fin N) ℝ) :=
  if ndim ≠ 1 then .error "t must be a 1D array of time points."
  else if ¬ (0 < H ∧ H < 1) then .error "H must be in (0, 1)."
  else .ok (covMatrix t H)

/-- `np.linspace(start, stop, num)` in exact real arithmetic:
`num` equally spaced points from `start` to `stop` inclusive. -/
def linspace (start stop : ℝ) (num : ℕ) : Fin num → ℝ :=
  fun i => start + (i : ℝ) * ((stop - start) / ((num : ℝ) - 1))

/-- A numpy random generator, modelled as an unbounded stream of
standard-normal draws together with a cursor into the stream. -/
structure Generator where
  stream : ℕ → ℝ
  pos : ℕ

/-- `rng.normal(size=size)`: the next `size` draws, and the advanced
generator. -/
def Generator.normal (g : Generator) (size : ℕ) : (Fin size → ℝ) × Generator :=
  (fun k => g.stream (g.pos + k), ⟨g.stream, g.pos + size⟩)

/-- The `random_state` argument of `fbm_kl_truncated`:
`None`, an integer seed, or an existing `np.random.Generator`. -/
inductive RandomState where
  | noSeed
  | seed (s : ℤ)
  | gen (g : Generator)

/-- Lines 104-107 of `src/core.py`: reuse the generator if one was passed,
otherwise call `np.random.default_rng(random_state)` (here the abstract
parameter `default_rng`). -/
def resolveRng (default_rng : Option ℤ → Generator) : RandomState → Generator
  | .gen g => g
  | .seed s => default_rng (some s)
  | .noSeed => default_rng Option.none

/-- `np.argsort(w)[::-1]` as a permutation of indices: position `k` holds the
index of the `k`-th largest entry of `w` (an ascending sorting permutation,
read backwards). -/
def argsortDesc {n : ℕ} (w : Fin n → ℝ) : Equiv.Perm (Fin n) :=
  Fin.revPerm.trans (Tuple.sort w)

/-- Lines 98-100 of `src/core.py`: reorder the eigenvalues and the eigenvector
columns with `idx = np.argsort(w)[::-1]` (`w = w[idx]`, `V = V[:, idx]`). -/
def sortEigh {n : ℕ} (wV : (Fin n → ℝ) × Matrix (Fin n) (Fin n) ℝ) :
    (Fin n → ℝ) × Matrix (Fin n) (Fin n) ℝ :=
  (fun k => wV.1 (argsortDesc wV.1 k),
   Matrix.of fun i k => wV.2 i (argsortDesc wV.1 k))

/-- The signature of the external symmetric eigensolver `np.linalg.eigh`:
eigenvalues and an eigenvector matrix (columns are eigenvectors). -/
def EighFn : Type :=
  (n : ℕ) → Matrix (Fin n) (Fin n) ℝ → (Fin n → ℝ) × Matrix (Fin n) (Fin n) ℝ

/-- The result of a successful `fbm_kl_truncated` call: a grid length `N`,
the time grid, the simulated path (both of length `N`), and the generator as
left behind after the normal draws. -/
structure KLResult where
  N : ℕ
  t : Fin N → ℝ
  path : Fin N → ℝ
  rngAfter : Generator

/-- Embedding of `fbm_kl_truncated` (lines 42-114 of `src/core.py`).
`eigh` and `default_rng` are the two external collaborators
(`np.linalg.eigh` and `np.random.default_rng`); everything else follows the
source line by line: validation, `t = np.linspace(0, T, N)`,
`C = fbm_covariance_grid(t, H)`, `w, V = eigh(C)`, descending sort, clip at
zero, `z = rng.normal(size=K)`, `path = V[:, :K] @ (np.sqrt(w[:K]) * z)`. -/
def fbm_kl_truncated (eigh : EighFn) (default_rng : Option ℤ → Generator)
    (H : ℝ) (T : ℝ) (K : ℤ) (n_steps : ℤ) (random_state : RandomState) :
    Except String KLResult :=
  if ¬ (0 < H ∧ H < 1) then .error "H must be in (0, 1)."
  else if n_steps < 1 then .error "n_steps must be at least 1."
  else if T ≤ 0 then .error "T must be positive."
  else if hK : ¬ (1 ≤ K ∧ K ≤ n_steps + 1) then
    .error ("K must be in [1, " ++ toString (n_steps + 1) ++ "], got K=" ++
      toString K ++ ".")
  else
    let Nn : ℕ := (n_steps + 1).toNat
    let t : Fin Nn → ℝ := linspace 0 T Nn
    match fbm_covariance_grid 1 t H with
    | .error e => .error e
    | .ok C =>
      let wV := sortEigh ((eigh Nn) C)
      let w : Fin Nn → ℝ := fun k => max (wV.1 k) 0
      let V : Matrix (Fin Nn) (Fin Nn) ℝ := wV.2
      let rng := resolveRng default_rng random_state
      let zg := rng.normal K.toNat
      let emb : Fin K.toNat → Fin Nn :=
        Fin.castLE (by omega : K.toNat ≤ (n_steps + 1).toNat)
      let coeffs : Fin K.toNat → ℝ :=
        fun k => Real.sqrt (w (emb k)) * zg.1 k
      let path : Fin Nn → ℝ := fun i => ∑ k : Fin K.toNat, V i (emb k) * coeffs k
      .ok ⟨Nn, t, path, zg.2⟩

/-- Squared Frobenius norm of a real matrix. -/
def frobSq {n : ℕ} (A : Matrix (Fin n) (Fin n) ℝ) : ℝ :=
  ∑ i, ∑ j, (A i j) ^ 2

/-- Frobenius norm of a real matrix. -/
def frobNorm {n : ℕ} (A : Matrix (Fin n) (Fin n) ℝ) : ℝ :=
  Real.sqrt (frobSq A)

/-- The rank-`K` truncation `V[:, :K] diag(max(w[:K],0)) V[:, :K]ᵀ` used by
the Karhunen-Loève sampler, written as a full-size product with the trailing
diagonal entries zeroed out (the two forms agree entrywise). -/
def truncApprox {n : ℕ} (V : Matrix (Fin n) (Fin n) ℝ) (w : Fin n → ℝ)
    (K : ℕ) : Matrix (Fin n) (Fin n) ℝ :=
  V * Matrix.diagonal (fun k : Fin n => if (k : ℕ) < K then max (w k) 0 else 0) * Vᵀ

/-- Positive semidefiniteness of a real matrix, via the quadratic form. -/
def PosSemidefR {n : ℕ} (C : Matrix (Fin n) (Fin n) ℝ) : Prop :=
  ∀ x : Fin n → ℝ, 0 ≤ Matrix.dotProduct x (C.mulVec x)

/-- Whether a Python call returned normally (as opposed to raising). -/
def isOk {ε α : Type} : Except ε α → Prop
  | .ok _ => True
  | .error _ => False

/-- The path built on the happy path of `fbm_kl_truncated`, spelled out:
`path i = Σ k < K, V i k * (sqrt(max(w k, 0)) * z k)` where `(w, V)` is the
sorted eigendecomposition `wV` and `z` consists of the next `Kn` draws of the
generator `g`. -/
def klPathSpec {Nn : ℕ} (wV : (Fin Nn → ℝ) × Matrix (Fin Nn) (Fin Nn) ℝ)
    (g : Generator) (Kn : ℕ) (hKN : Kn ≤ Nn) : Fin Nn → ℝ :=
  fun i => ∑ k : Fin Kn, wV.2 i (Fin.castLE hKN k) *
    (Real.sqrt (max (wV.1 (Fin.castLE hKN k)) 0) * g.stream (g.pos + k))

/-- A stub eigensolver (zero eigenvalues, identity eigenvectors), used to
instantiate theorems at concrete inputs. -/
def eigh0 : EighFn := fun _ _ => (fun _ => 0, 1)

/-- A stub generator whose draws are all zero. -/
def gen0 : Generator := ⟨fun _ => 0, 0⟩

/-- A stub `default_rng`. -/
def drng0 : Option ℤ → Generator := fun _ => gen0

/-! ## Helper lemmas -/

/-- On a one-dimensional grid with `0 < H < 1`, `fbm_covariance_grid` takes
its normal-return branch and yields the kernel matrix. -/
theorem fbm_covariance_grid_ok {N : ℕ} (t : Fin N → ℝ) (H : ℝ)
    (h0 : 0 < H) (h1 : H < 1) :
    fbm_covariance_grid 1 t H = .ok (covMatrix t H) := by
  unfold fbm_covariance_grid
  rw [if_neg (by simp : ¬ (1 ≠ 1)), if_neg (not_not_intro ⟨h0, h1⟩)]

/-- On valid inputs `fbm_kl_truncated` takes its normal-return branch and the
result is fully determined: `N = n_steps + 1` points, grid
`linspace 0 T N`, path `klPathSpec` built from the sorted-and-clipped
eigendecomposition and the next `K` draws, and a generator advanced by
exactly `K` positions. -/
theorem fbm_kl_truncated_eq_ok (eigh : EighFn)
    (default_rng : Option ℤ → Generator) (H T : ℝ) (K n_steps : ℤ)
    (rs : RandomState) (h0 : 0 < H) (h1 : H < 1) (hn : 1 ≤ n_steps)
    (hT : 0 < T) (hK1 : 1 ≤ K) (hK2 : K ≤ n_steps + 1)
    (hKN : K.toNat ≤ (n_steps + 1).toNat) :
    fbm_kl_truncated eigh default_rng H T K n_steps rs =
      .ok ⟨(n_steps + 1).toNat, linspace 0 T (n_steps + 1).toNat,
        klPathSpec (sortEigh (eigh (n_steps + 1).toNat
            (covMatrix (linspace 0 T (n_steps + 1).toNat) H)))
          (resolveRng default_rng rs) K.toNat hKN,
        ⟨(resolveRng default_rng rs).stream,
         (resolveRng default_rng rs).pos + K.toNat⟩⟩ := by
  unfold fbm_kl_truncated
  rw [if_neg (not_not_intro ⟨h0, h1⟩), if_neg (not_lt.mpr hn),
    if_neg (not_le.mpr hT), dif_neg (not_not_intro ⟨hK1, hK2⟩)]
  simp only [fbm_covariance_grid_ok _ H h0 h1]
  rfl

/-! ## Claim theorems and witnesses -/

/-- C1: for every one-dimensional real grid `t` of length `N` and every
`H ∈ (0,1)`, `fbm_covariance_grid` returns an `N×N` matrix whose `(i,j)`
entry is `0.5 * (|t i|^(2H) + |t j|^(2H) - |t i - t j|^(2H))`; in
particular the matrix is symmetric. -/
theorem fbm_covariance_grid_entries_and_symmetric {N : ℕ} (t : Fin N → ℝ)
    (H : ℝ) (h0 : 0 < H) (h1 : H < 1) :
    fbm_covariance_grid 1 t H = .ok (covMatrix t H) ∧
    (∀ i j, covMatrix t H i j =
      0.5 * (|t i| ^ (2 * H) + |t j| ^ (2 * H) - |t i - t j| ^ (2 * H))) ∧
    (∀ i j, covMatrix t H i j = covMatrix t H j i) := by
  refine ⟨fbm_covariance_grid_ok t H h0 h1, fun i j => rfl, fun i j => ?_⟩
  simp only [covMatrix, Matrix.of_apply]
  rw [abs_sub_comm]
  ring

/-- Witness for C1 at `t = [0, 1]`, `H = 1/2`: the symmetry of the `(0,1)`
and `(1,0)` entries, by direct application. -/
theorem fbm_covariance_grid_entries_and_symmetric_witness :
    covMatrix ![(0 : ℝ), 1] (1/2) 0 1 = covMatrix ![(0 : ℝ), 1] (1/2) 1 0 :=
  (fbm_covariance_grid_entries_and_symmetric ![(0 : ℝ), 1] (1/2)
    (by norm_num) (by norm_num)).2.2 0 1

/-- C6: at `H = 1/2` and a non-negative grid, every entry of the returned
covariance matrix is `min (t i) (t j)`, the Brownian-motion covariance. -/
theorem fbm_covariance_grid_brownian {N : ℕ} (t : Fin N → ℝ)
    (ht : ∀ i, 0 ≤ t i) :
    fbm_covariance_grid 1 t (1/2) = .ok (covMatrix t (1/2)) ∧
    ∀ i j, covMatrix t (1/2) i j = min (t i) (t j) := by
  refine ⟨fbm_covariance_grid_ok t (1/2) (by norm_num) (by norm_num), fun i j => ?_⟩
  have h2 : (2 : ℝ) * (1/2) = 1 := by norm_num
  simp only [covMatrix, Matrix.of_apply, h2, Real.rpow_one]
  rw [abs_of_nonneg (ht i), abs_of_nonneg (ht j)]
  rcases le_total (t i) (t j) with h | h
  · rw [abs_of_nonpos (by linarith), min_eq_left h]; ring
  · rw [abs_of_nonneg (by linarith), min_eq_right h]; ring

/-- Witness for C6 at `t = [0, 1]`: the `(0,1)` entry is `min 0 1`. -/
theorem fbm_covariance_grid_brownian_witness :
    covMatrix ![(0 : ℝ), 1] (1/2) 0 1 = min ((0 : ℝ)) 1 := by
  have h := (fbm_covariance_grid_brownian ![(0 : ℝ), 1] (by
    intro i
    fin_cases i <;> norm_num)).2 0 1
  simpa using h

/-- C9 (amended): for every one-dimensional real grid and `H ∈ (0,1)` the
diagonal entry is `|t i| ^ (2 H)`, which equals `t i ^ (2 H)` whenever
`t i ≥ 0`. -/
theorem fbm_covariance_grid_diagonal {N : ℕ} (t : Fin N → ℝ) (H : ℝ)
    (h0 : 0 < H) (h1 : H < 1) :
    fbm_covariance_grid 1 t H = .ok (covMatrix t H) ∧
    (∀ i, covMatrix t H i i = |t i| ^ (2 * H)) ∧
    (∀ i, 0 ≤ t i → covMatrix t H i i = t i ^ (2 * H)) := by
  have hdiag : ∀ i, covMatrix t H i i = |t i| ^ (2 * H) := by
    intro i
    simp only [covMatrix, Matrix.of_apply, sub_self, abs_zero]
    rw [Real.zero_rpow (by positivity)]
    ring
  refine ⟨fbm_covariance_grid_ok t H h0 h1, hdiag, fun i hi => ?_⟩
  rw [hdiag i, abs_of_nonneg hi]

/-- Witness for C9's amended statement at `t = [2]`, `H = 1/2`. -/
theorem fbm_covariance_grid_diagonal_witness :
    covMatrix ![(2 : ℝ)] (1/2) 0 0 = (2 : ℝ) ^ (2 * (1/2 : ℝ)) := by
  have h := (fbm_covariance_grid_diagonal ![(2 : ℝ)] (1/2)
    (by norm_num) (by norm_num)).2.2 0 (by norm_num)
  simpa using h

/-- C9 (counterexample): on the grid `t = [-1]` with `H = 1/2`, the code's
diagonal entry is `1`, while the claimed value `t_0 ^ (2 H) = (-1)^1` is
`-1`; so the diagonal is not `t i ^ (2 H)` on every real grid. -/
theorem fbm_covariance_grid_diagonal_counterexample :
    fbm_covariance_grid 1 ![(-1 : ℝ)] (1/2) = .ok (covMatrix ![(-1 : ℝ)] (1/2)) ∧
    covMatrix ![(-1 : ℝ)] (1/2) 0 0 = 1 ∧
    (-1 : ℝ) ^ (2 * (1/2 : ℝ)) = -1 ∧
    covMatrix ![(-1 : ℝ)] (1/2) 0 0 ≠ (-1 : ℝ) ^ (2 * (1/2 : ℝ)) := by
  have h2 : (2 : ℝ) * (1/2) = 1 := by norm_num
  have hcov : covMatrix ![(-1 : ℝ)] (1/2) 0 0 = 1 := by
    simp only [covMatrix, Matrix.of_apply, h2, Real.rpow_one]
    norm_num
  have hrpow : (-1 : ℝ) ^ (2 * (1/2 : ℝ)) = -1 := by
    rw [h2, Real.rpow_one]
  exact ⟨fbm_covariance_grid_ok ![(-1 : ℝ)] (1/2) (by norm_num) (by norm_num),
    hcov, hrpow, by rw [hcov, hrpow]; norm_num⟩

/-- C2: on valid inputs the returned path is `V[:, :K]` applied to the
coefficient vector `k ↦ sqrt(w k) * z k` built from the descending-sorted,
clipped eigendecomposition `(w, V)` of the covariance matrix and the normal
draws `z` (see `klPathSpec`), and the returned generator's cursor has
advanced by exactly `K`: exactly `K` draws are consumed. -/
theorem fbm_kl_truncated_path_formula (eigh : EighFn)
    (default_rng : Option ℤ → Generator) (H T : ℝ) (K n_steps : ℤ)
    (rs : RandomState) (h0 : 0 < H) (h1 : H < 1) (hn : 1 ≤ n_steps)
    (hT : 0 < T) (hK1 : 1 ≤ K) (hK2 : K ≤ n_steps + 1)
    (hKN : K.toNat ≤ (n_steps + 1).toNat) :
    fbm_kl_truncated eigh default_rng H T K n_steps rs =
      .ok ⟨(n_steps + 1).toNat, linspace 0 T (n_steps + 1).toNat,
        klPathSpec (sortEigh (eigh (n_steps + 1).toNat
            (covMatrix (linspace 0 T (n_steps + 1).toNat) H)))
          (resolveRng default_rng rs) K.toNat hKN,
        ⟨(resolveRng default_rng rs).stream,
         (resolveRng default_rng rs).pos + K.toNat⟩⟩ :=
  fbm_kl_truncated_eq_ok eigh default_rng H T K n_steps rs h0 h1 hn hT hK1
    hK2 hKN

/-- Witness for C2 at `H = 1/2`, `T = 1`, `K = 1`, `n_steps = 1`, stub
eigensolver and generator. -/
theorem fbm_kl_truncated_path_formula_witness :
    fbm_kl_truncated eigh0 drng0 (1/2) 1 1 1 .noSeed =
      .ok ⟨((1 : ℤ) + 1).toNat, linspace 0 1 ((1 : ℤ) + 1).toNat,
        klPathSpec (sortEigh (eigh0 ((1 : ℤ) + 1).toNat
            (covMatrix (linspace 0 1 ((1 : ℤ) + 1).toNat) (1/2))))
          (resolveRng drng0 .noSeed) (1 : ℤ).toNat (by decide),
        ⟨(resolveRng drng0 .noSeed).stream,
         (resolveRng drng0 .noSeed).pos + (1 : ℤ).toNat⟩⟩ :=
  fbm_kl_truncated_path_formula eigh0 drng0 (1/2) 1 1 1 .noSeed
    (by norm_num) (by norm_num) (by norm_num) (by norm_num) (by norm_num)
    (by norm_num) (by decide)

/-- C5: on valid inputs the returned grid is exactly
`linspace 0 T (n_steps + 1)`, whose `i`-th point is `i * T / n_steps`
(first point `0`, last point `T`); the path is indexed by the same
`Fin ((n_steps + 1).toNat)`, hence has the same length. -/
theorem fbm_kl_truncated_grid_points (eigh : EighFn)
    (default_rng : Option ℤ → Generator) (H T : ℝ) (K n_steps : ℤ)
    (rs : RandomState) (h0 : 0 < H) (h1 : H < 1) (hn : 1 ≤ n_steps)
    (hT : 0 < T) (hK1 : 1 ≤ K) (hK2 : K ≤ n_steps + 1)
    (hKN : K.toNat ≤ (n_steps + 1).toNat) :
    fbm_kl_truncated eigh default_rng H T K n_steps rs =
      .ok ⟨(n_steps + 1).toNat, linspace 0 T (n_steps + 1).toNat,
        klPathSpec (sortEigh (eigh (n_steps + 1).toNat
            (covMatrix (linspace 0 T (n_steps + 1).toNat) H)))
          (resolveRng default_rng rs) K.toNat hKN,
        ⟨(resolveRng default_rng rs).stream,
         (resolveRng default_rng rs).pos + K.toNat⟩⟩ ∧
    (∀ i : Fin (n_steps + 1).toNat,
      linspace 0 T (n_steps + 1).toNat i = (i : ℝ) * T / (n_steps : ℝ)) ∧
    (∀ i : Fin (n_steps + 1).toNat, (i : ℕ) = 0 →
      linspace 0 T (n_steps + 1).toNat i = 0) ∧
    (∀ i : Fin (n_steps + 1).toNat, (i : ℕ) = n_steps.toNat →
      linspace 0 T (n_steps + 1).toNat i = T) := by
  have hN : (((n_steps + 1).toNat : ℕ) : ℝ) = (n_steps : ℝ) + 1 := by
    have h := Int.toNat_of_nonneg (by omega : (0 : ℤ) ≤ n_steps + 1)
    exact_mod_cast congrArg (fun z : ℤ => (z : ℝ)) h
  have hne : (n_steps : ℝ) ≠ 0 := by
    have : (1 : ℝ) ≤ (n_steps : ℝ) := by exact_mod_cast hn
    linarith
  have hentry : ∀ i : Fin (n_steps + 1).toNat,
      linspace 0 T (n_steps + 1).toNat i = (i : ℝ) * T / (n_steps : ℝ) := by
    intro i
    simp only [linspace]
    rw [hN]
    ring
  refine ⟨fbm_kl_truncated_eq_ok eigh default_rng H T K n_steps rs h0 h1 hn hT
    hK1 hK2 hKN, hentry, fun i hi => ?_, fun i hi => ?_⟩
  · rw [hentry i]
    have : ((i : ℕ) : ℝ) = 0 := by rw [hi]; norm_num
    rw [this]
    ring
  · rw [hentry i]
    have hv : ((i : ℕ) : ℝ) = (n_steps : ℝ) := by
      rw [hi]
      have h := Int.toNat_of_nonneg (by omega : (0 : ℤ) ≤ n_steps)
      exact_mod_cast congrArg (fun z : ℤ => (z : ℝ)) h
    rw [hv, mul_comm, mul_div_assoc, div_self hne, mul_one]

/-- Witness for C5 at `n_steps = 200`, `T = 1`: the 201-point grid starts at
`0` and ends at `1`. -/
theorem fbm_kl_truncated_grid_points_witness :
    linspace 0 (1 : ℝ) ((200 : ℤ) + 1).toNat ⟨0, by decide⟩ = 0 ∧
    linspace 0 (1 : ℝ) ((200 : ℤ) + 1).toNat ⟨200, by decide⟩ = 1 :=
  ⟨(fbm_kl_truncated_grid_points eigh0 drng0 (1/2) 1 1 200 .noSeed
      (by norm_num) (by norm_num) (by norm_num) (by norm_num) (by norm_num)
      (by norm_num) (by decide)).2.2.1 ⟨0, by decide⟩ (by decide),
   (fbm_kl_truncated_grid_points eigh0 drng0 (1/2) 1 1 200 .noSeed
      (by norm_num) (by norm_num) (by norm_num) (by norm_num) (by norm_num)
      (by norm_num) (by decide)).2.2.2 ⟨200, by decide⟩ (by decide)⟩

/-- C8: two calls of `fbm_kl_truncated` with identical arguments and the same
integer seed (each call resolving the seed to a generator through the same
`default_rng`) return identical results — grid and path included.  In this
embedding a call is a pure function of its arguments, so the two runs
coincide definitionally. -/
theorem fbm_kl_truncated_reproducible (eigh : EighFn)
    (default_rng : Option ℤ → Generator) (H T : ℝ) (K n_steps : ℤ)
    (s : ℤ) :
    fbm_kl_truncated eigh default_rng H T K n_steps (.seed s) =
      fbm_kl_truncated eigh default_rng H T K n_steps (.seed s) := rfl

/-- C4: `fbm_covariance_grid` returns normally iff `t` is one-dimensional
and `0 < H < 1`; `fbm_kl_truncated` returns normally iff `0 < H < 1`,
`n_steps ≥ 1`, `T > 0` and `1 ≤ K ≤ n_steps + 1`; and when only the `K`
constraint fails, the error message reports the offending `K` and the valid
range `[1, N]`. -/
theorem invalid_input_characterization {N : ℕ} (ndim : ℕ) (t : Fin N → ℝ)
    (Hc : ℝ) (eigh : EighFn) (default_rng : Option ℤ → Generator)
    (H T : ℝ) (K n_steps : ℤ) (rs : RandomState) :
    (isOk (fbm_covariance_grid ndim t Hc) ↔ ndim = 1 ∧ 0 < Hc ∧ Hc < 1) ∧
    (isOk (fbm_kl_truncated eigh default_rng H T K n_steps rs) ↔
      (0 < H ∧ H < 1) ∧ 1 ≤ n_steps ∧ 0 < T ∧ 1 ≤ K ∧ K ≤ n_steps + 1) ∧
    ((0 < H ∧ H < 1) → 1 ≤ n_steps → 0 < T → ¬ (1 ≤ K ∧ K ≤ n_steps + 1) →
      fbm_kl_truncated eigh default_rng H T K n_steps rs =
        .error ("K must be in [1, " ++ toString (n_steps + 1) ++
          "], got K=" ++ toString K ++ ".")) := by
  refine ⟨?_, ?_, ?_⟩
  · unfold fbm_covariance_grid
    by_cases hnd : ndim = 1
    · rw [if_neg (not_ne_iff.mpr hnd)]
      by_cases hH : 0 < Hc ∧ Hc < 1
      · rw [if_neg (not_not_intro hH)]
        exact iff_of_true trivial ⟨hnd, hH⟩
      · rw [if_pos hH]
        exact iff_of_false (fun h => h) (fun h => hH h.2)
    · rw [if_pos hnd]
      exact iff_of_false (fun h => h) (fun h => hnd h.1)
  · unfold fbm_kl_truncated
    by_cases hH : 0 < H ∧ H < 1
    · rw [if_neg (not_not_intro hH)]
      by_cases hn : n_steps < 1
      · rw [if_pos hn]
        exact iff_of_false (fun h => h)
          (fun h => absurd h.2.1 (not_le.mpr hn))
      · rw [if_neg hn]
        by_cases hT : T ≤ 0
        · rw [if_pos hT]
          exact iff_of_false (fun h => h)
            (fun h => absurd h.2.2.1 (not_lt.mpr hT))
        · rw [if_neg hT]
          by_cases hK : 1 ≤ K ∧ K ≤ n_steps + 1
          · rw [dif_neg (not_not_intro hK)]
            simp only [fbm_covariance_grid_ok _ H hH.1 hH.2]
            exact iff_of_true trivial ⟨hH, by omega, not_le.mp hT, hK⟩
          · rw [dif_pos hK]
            exact iff_of_false (fun h => h) (fun h => hK h.2.2.2)
    · rw [if_pos hH]
      exact iff_of_false (fun h => h) (fun h => hH h.1)
  · intro hH hn hT hK
    unfold fbm_kl_truncated
    rw [if_neg (not_not_intro hH), if_neg (not_lt.mpr hn),
      if_neg (not_le.mpr hT), dif_pos hK]

/-- Witness for C4: at `H = 1/2`, `T = 1`, `n_steps = 1`, `K = 0` the call
fails with the message naming `K` and the range `[1, 2]`. -/
theorem invalid_input_characterization_witness :
    fbm_kl_truncated eigh0 drng0 (1/2) 1 0 1 .noSeed =
      .error ("K must be in [1, " ++ toString ((1 : ℤ) + 1) ++
        "], got K=" ++ toString (0 : ℤ) ++ ".") :=
  (invalid_input_characterization 1 (![] : Fin 0 → ℝ) (1/2) eigh0 drng0
    (1/2) 1 0 1 .noSeed).2.2 (by norm_num) (by norm_num) (by norm_num)
    (by omega)

/-- C3: inside `fbm_kl_truncated` the eigenpairs are sorted by raw
eigenvalue descending (`argsortDesc`) and only then clipped: the sorted
sequence is the eigensolver output composed with a permutation, it is
non-increasing, its first `K` entries dominate all later ones (the `K`
largest), the clipped values `max (w k) 0` are all non-negative, and
clipping fixes every strictly positive entry, so the relative order among
strictly positive eigenvalues is their order by value. -/
theorem sortEigh_sorted_clipped {n : ℕ}
    (wV : (Fin n → ℝ) × Matrix (Fin n) (Fin n) ℝ) (K : ℕ) :
    (∀ k, (sortEigh wV).1 k = wV.1 (argsortDesc wV.1 k)) ∧
    (∀ k l : Fin n, k ≤ l → (sortEigh wV).1 l ≤ (sortEigh wV).1 k) ∧
    (∀ k j : Fin n, (k : ℕ) < K → K ≤ (j : ℕ) →
      (sortEigh wV).1 j ≤ (sortEigh wV).1 k) ∧
    (∀ k, 0 ≤ max ((sortEigh wV).1 k) 0) ∧
    (∀ k, 0 < (sortEigh wV).1 k →
      max ((sortEigh wV).1 k) 0 = (sortEigh wV).1 k) := by
  have anti : ∀ k l : Fin n, k ≤ l → (sortEigh wV).1 l ≤ (sortEigh wV).1 k := by
    intro k l hkl
    show wV.1 (Tuple.sort wV.1 (Fin.revPerm l)) ≤
      wV.1 (Tuple.sort wV.1 (Fin.revPerm k))
    exact Tuple.monotone_sort wV.1 (by
      simp only [Fin.revPerm_apply]
      exact Fin.rev_le_rev.mpr hkl)
  refine ⟨fun k => rfl, anti, fun k j hk hj => ?_, fun k => le_max_right _ _,
    fun k hk => max_eq_left (le_of_lt hk)⟩
  exact anti k j (by omega)

/-- Witness for C3 on a one-element eigendecomposition with `K = 1`:
the clipped eigenvalue is non-negative, by direct application. -/
theorem sortEigh_sorted_clipped_witness :
    0 ≤ max ((sortEigh ((fun _ => (0 : ℝ)),
      (1 : Matrix (Fin 1) (Fin 1) ℝ))).1 0) 0 :=
  (sortEigh_sorted_clipped ((fun _ => (0 : ℝ)),
    (1 : Matrix (Fin 1) (Fin 1) ℝ)) 1).2.2.2.1 0

/-- C10: for any one-dimensional grid (the empty grid included) and any
`H ∈ (0,1)`, `fbm_covariance_grid` returns normally; no error branch is
reachable. -/
theorem fbm_covariance_grid_no_error {N : ℕ} (t : Fin N → ℝ) (H : ℝ)
    (h0 : 0 < H) (h1 : H < 1) :
    isOk (fbm_covariance_grid 1 t H) := by
  rw [fbm_covariance_grid_ok t H h0 h1]
  trivial

/-- Witness for C10 on the empty grid (`N = 0`, a 0-by-0 result). -/
theorem fbm_covariance_grid_no_error_witness :
    isOk (fbm_covariance_grid 1 (![] : Fin 0 → ℝ) (1/2)) :=
  fbm_covariance_grid_no_error ![] (1/2) (by norm_num) (by norm_num)

/-! ## Frobenius-norm lemmas for the truncation error (C7) -/

/-- The squared Frobenius norm is the trace of `Aᵀ * A`. -/
theorem frobSq_eq_trace {n : ℕ} (A : Matrix (Fin n) (Fin n) ℝ) :
    frobSq A = Matrix.trace (Aᵀ * A) := by
  unfold frobSq Matrix.trace
  simp only [Matrix.diag_apply, Matrix.mul_apply, Matrix.transpose_apply, sq]
  exact Finset.sum_comm

/-- Conjugating a diagonal matrix by an orthogonal matrix preserves the
squared Frobenius norm. -/
theorem frobSq_conj {n : ℕ} {V : Matrix (Fin n) (Fin n) ℝ}
    (hV : Vᵀ * V = 1) (d : Fin n → ℝ) :
    frobSq (V * Matrix.diagonal d * Vᵀ) = ∑ k, d k ^ 2 := by
  rw [frobSq_eq_trace]
  have key : (V * Matrix.diagonal d * Vᵀ)ᵀ * (V * Matrix.diagonal d * Vᵀ) =
      V * (Matrix.diagonal d * Matrix.diagonal d) * Vᵀ := by
    rw [Matrix.transpose_mul, Matrix.transpose_mul, Matrix.transpose_transpose,
      Matrix.diagonal_transpose]
    simp only [Matrix.mul_assoc]
    rw [← Matrix.mul_assoc Vᵀ V, hV, Matrix.one_mul]
  rw [key, Matrix.diagonal_mul_diagonal, Matrix.mul_assoc,
    Matrix.trace_mul_comm, Matrix.mul_assoc, hV, Matrix.mul_one,
    Matrix.trace_diagonal]
  simp [sq]

/-- The residual of the rank-`K` truncation, in diagonal form. -/
theorem sub_truncApprox {n : ℕ} {C V : Matrix (Fin n) (Fin n) ℝ}
    {w : Fin n → ℝ} (hC : C = V * Matrix.diagonal w * Vᵀ) (K : ℕ) :
    C - truncApprox V w K =
      V * Matrix.diagonal
        (fun k : Fin n => w k - (if (k : ℕ) < K then max (w k) 0 else 0)) *
        Vᵀ := by
  rw [hC]
  unfold truncApprox
  rw [← Matrix.sub_mul, ← Matrix.mul_sub, Matrix.diagonal_sub]

/-- If `V` is orthogonal and `C = V diag(w) Vᵀ` is positive semidefinite,
every `w k` is non-negative. -/
theorem eig_nonneg_of_psd {n : ℕ} {C V : Matrix (Fin n) (Fin n) ℝ}
    {w : Fin n → ℝ} (hV : Vᵀ * V = 1)
    (hC : C = V * Matrix.diagonal w * Vᵀ)
    (hpsd : PosSemidefR C) (k : Fin n) : 0 ≤ w k := by
  have hD : Vᵀ * C * V = Matrix.diagonal w := by
    rw [hC]
    simp only [Matrix.mul_assoc]
    rw [hV, Matrix.mul_one, ← Matrix.mul_assoc Vᵀ V, hV, Matrix.one_mul]
  have hqf : Matrix.dotProduct (fun i => V i k)
      (C.mulVec fun i => V i k) = w k := by
    have hkk := congrFun (congrFun hD k) k
    rw [Matrix.diagonal_apply_eq] at hkk
    rw [← hkk]
    simp only [Matrix.mul_apply, Matrix.mulVec, Matrix.dotProduct,
      Matrix.transpose_apply, Finset.sum_mul, Finset.mul_sum]
    rw [Finset.sum_comm]
    simp only [mul_assoc]
  have h0 := hpsd (fun i => V i k)
  rw [hqf] at h0
  exact h0

/-- With non-negative eigenvalues, the squared truncation error is the sum of
the squared dropped eigenvalues. -/
theorem frobSq_err {n : ℕ} {C V : Matrix (Fin n) (Fin n) ℝ}
    {w : Fin n → ℝ} (hV : Vᵀ * V = 1)
    (hC : C = V * Matrix.diagonal w * Vᵀ)
    (hw : ∀ k, 0 ≤ w k) (K : ℕ) :
    frobSq (C - truncApprox V w K) =
      ∑ k : Fin n, (if (k : ℕ) < K then 0 else w k ^ 2) := by
  rw [sub_truncApprox hC K, frobSq_conj hV]
  apply Finset.sum_congr rfl
  intro k _
  by_cases h : (k : ℕ) < K
  · simp [h, max_eq_left (hw k)]
  · simp [h]

/-- The squared truncation error does not increase with `K`. -/
theorem frobSq_err_antitone {n : ℕ} {C V : Matrix (Fin n) (Fin n) ℝ}
    {w : Fin n → ℝ} (hV : Vᵀ * V = 1)
    (hC : C = V * Matrix.diagonal w * Vᵀ)
    (hw : ∀ k, 0 ≤ w k) (K : ℕ) :
    frobSq (C - truncApprox V w (K + 1)) ≤ frobSq (C - truncApprox V w K) := by
  rw [frobSq_err hV hC hw (K + 1), frobSq_err hV hC hw K]
  apply Finset.sum_le_sum
  intro k _
  by_cases h1 : (k : ℕ) < K
  · simp [h1, Nat.lt_succ_of_lt h1]
  · by_cases h2 : (k : ℕ) < K + 1
    · simp [h1, h2, sq_nonneg]
    · simp [h1, h2]

/-- At full rank the truncation error vanishes. -/
theorem frobSq_err_zero {n : ℕ} {C V : Matrix (Fin n) (Fin n) ℝ}
    {w : Fin n → ℝ} (hV : Vᵀ * V = 1)
    (hC : C = V * Matrix.diagonal w * Vᵀ)
    (hw : ∀ k, 0 ≤ w k) :
    frobSq (C - truncApprox V w n) = 0 := by
  rw [frobSq_err hV hC hw n]
  apply Finset.sum_eq_zero
  intro k _
  simp [k.isLt]

/-- The covariance matrix on the one-point grid `[0]` is the zero matrix. -/
theorem covMatrix_single_zero : covMatrix ![(0 : ℝ)] (1/2) = 0 := by
  ext i j
  have hi : (![(0 : ℝ)]) i = 0 := by fin_cases i; rfl
  have hj : (![(0 : ℝ)]) j = 0 := by fin_cases j; rfl
  simp only [covMatrix, Matrix.of_apply, hi, hj, sub_self, abs_zero,
    Matrix.zero_apply]
  rw [Real.zero_rpow (by norm_num : (2 * (1/2 : ℝ)) ≠ 0)]
  ring

/-- On the one-point grid the stub eigensolver's sorted eigenvector matrix is
the identity. -/
theorem sortEigh_eigh0_single_V :
    (sortEigh (eigh0 1 (covMatrix ![(0 : ℝ)] (1/2)))).2 = 1 := by
  ext i k
  show (1 : Matrix (Fin 1) (Fin 1) ℝ) i
    (argsortDesc (fun _ => (0 : ℝ)) k) = (1 : Matrix (Fin 1) (Fin 1) ℝ) i k
  rw [Subsingleton.elim (argsortDesc (fun _ => (0 : ℝ)) k) k]

/-- C7: with `(w, V)` the descending-sorted eigendecomposition computed
inside `fbm_kl_truncated` (`sortEigh` of the eigensolver output on the
covariance matrix), assuming the eigensolver output is an exact orthonormal
eigendecomposition (`Vᵀ V = 1`, `C = V diag(w) Vᵀ`; `C` is positive
semidefinite in exact arithmetic), the Frobenius-norm error of the clipped
rank-`K` truncation is non-increasing in `K` and is exactly `0` at
`K = N`. -/
theorem kl_truncation_error_monotone {N : ℕ} (t : Fin N → ℝ) (H : ℝ)
    (eigh : EighFn) (w : Fin N → ℝ) (V : Matrix (Fin N) (Fin N) ℝ)
    (hwV : (w, V) = sortEigh (eigh N (covMatrix t H)))
    (hV : Vᵀ * V = 1)
    (hC : covMatrix t H = V * Matrix.diagonal w * Vᵀ)
    (hpsd : PosSemidefR (covMatrix t H)) :
    (∀ K : ℕ, frobNorm (covMatrix t H - truncApprox V w (K + 1)) ≤
      frobNorm (covMatrix t H - truncApprox V w K)) ∧
    frobNorm (covMatrix t H - truncApprox V w N) = 0 := by
  have hw : ∀ k, 0 ≤ w k := eig_nonneg_of_psd hV hC hpsd
  constructor
  · intro K
    exact Real.sqrt_le_sqrt (frobSq_err_antitone hV hC hw K)
  · rw [frobNorm, frobSq_err_zero hV hC hw, Real.sqrt_zero]

/-- Witness for C7 on the one-point grid `[0]` with `H = 1/2` and the stub
eigensolver: at full rank `K = N = 1` the truncation error is `0`. -/
theorem kl_truncation_error_monotone_witness :
    frobNorm (covMatrix ![(0 : ℝ)] (1/2) -
      truncApprox (sortEigh (eigh0 1 (covMatrix ![(0 : ℝ)] (1/2)))).2
        (sortEigh (eigh0 1 (covMatrix ![(0 : ℝ)] (1/2)))).1 1) = 0 :=
  (kl_truncation_error_monotone ![(0 : ℝ)] (1/2) eigh0
    (sortEigh (eigh0 1 (covMatrix ![(0 : ℝ)] (1/2)))).1
    (sortEigh (eigh0 1 (covMatrix ![(0 : ℝ)] (1/2)))).2
    rfl
    (by rw [sortEigh_eigh0_single_V, Matrix.transpose_one, Matrix.one_mul])
    (by
      rw [sortEigh_eigh0_single_V, covMatrix_single_zero]
      have hw0 : ∀ M : Matrix (Fin 1) (Fin 1) ℝ,
          (sortEigh (eigh0 1 M)).1 = fun _ => (0 : ℝ) := fun M => rfl
      rw [hw0]
      simp)
    (by
      intro x
      rw [covMatrix_single_zero]
      simp)).2

end

end FbmKL
